import Mathlib

/-!
# Verification of the resume-builder core (`src/resumeV1.py`)

This file shallowly embeds the two core functions of the repository —
`generate_resume` (prompt construction, model invocation, JSON extraction and
parsing) and `create_pdf` (document rendering into a flowable sequence) —
and proves the specification's claims about them.

Conventions of the embedding:
* Python strings become Lean `String`s / `List Char`s.
* `re.search(r'\x7b.*\x7d', raw, re.DOTALL)` (greedy, DOTALL) is embedded as an
  explicit scanner with the same semantics: the match starts at the first
  brace-open that has some brace-close after it and ends at the last
  brace-close of the text.
* `json.loads` is embedded as a fuel-indexed recursive-descent parser that
  follows the grammar accepted by Python's strict `json` module decoder:
  numbers match `-?(0|[1-9][0-9]*)(\.[0-9]+)?([eE][-+]?[0-9]+)?`, the extra
  literals `NaN`, `Infinity`, `-Infinity` are accepted, unescaped control
  characters inside strings are rejected, trailing commas are rejected.
  (One modelled simplification: a `\uXXXX` escape is decoded as a single code
  unit; surrogate-pair combination for astral characters is not modelled.
  This affects only the decoded value of such escapes, never acceptance.)
* The language model is an oracle `String → LLMOutcome`; a raised provider
  exception corresponds to the `failure` outcome, which the code's
  `except Exception` arm converts into an error report.
* `streamlit.error` reports become the corresponding `GenResult` error
  constructors carrying the reported payload, as in the spec's failure
  taxonomy (`ModelInvocationError`, `NoJsonFound`, `JsonDecodeError`).
-/

namespace ResumeBuilder

/-- The character `\x7b` (brace open), built numerically. -/
def lbrace : Char := Char.ofNat 123

/-- The character `\x7d` (brace close), built numerically. -/
def rbrace : Char := Char.ofNat 125

/-- JSON whitespace as accepted between tokens by Python's `json` decoder. -/
def isJsonWs (c : Char) : Bool :=
  c = ' ' || c = '\t' || c = '\n' || c = '\r'

/-- Drop leading JSON whitespace. -/
def skipWs : List Char → List Char
  | [] => []
  | c :: cs => if isJsonWs c then skipWs cs else c :: cs

/-- Hexadecimal digit test, for `\uXXXX` escapes. -/
def isHexCh (c : Char) : Bool :=
  c.isDigit || ('a' ≤ c && c ≤ 'f') || ('A' ≤ c && c ≤ 'F')

/-- Value of a hexadecimal digit. -/
def hexVal (c : Char) : Nat :=
  if c.isDigit then c.toNat - 48
  else if 'a' ≤ c && c ≤ 'f' then c.toNat - 87
  else c.toNat - 55

/-- Single-character string escapes accepted by the JSON grammar. -/
def escChar (e : Char) : Option Char :=
  if e = '"' then some '"'
  else if e = '\\' then some '\\'
  else if e = '/' then some '/'
  else if e = 'b' then some (Char.ofNat 8)
  else if e = 'f' then some (Char.ofNat 12)
  else if e = 'n' then some '\n'
  else if e = 'r' then some '\r'
  else if e = 't' then some '\t'
  else none

/-- A JSON value as produced by `json.loads`. Numbers (including the Python
extensions `NaN`, `Infinity`, `-Infinity`) are kept as their source lexeme:
no claim depends on numeric evaluation, only on parse acceptance and on
string-valued fields. -/
inductive Json where
  | null
  | bool (b : Bool)
  | num (lexeme : String)
  | str (s : String)
  | arr (elems : List Json)
  | obj (fields : List (String × Json))

/-- Decode the four hexadecimal digits of a `\uXXXX` escape. -/
def escHex : List Char → Option (Char × List Char)
  | [] => none
  | [_] => none
  | [_, _] => none
  | [_, _, _] => none
  | h1 :: h2 :: h3 :: h4 :: cs3 =>
    if isHexCh h1 && isHexCh h2 && isHexCh h3 && isHexCh h4 then
      some (Char.ofNat
        (hexVal h1 * 4096 + hexVal h2 * 256 + hexVal h3 * 16 + hexVal h4), cs3)
    else none

/-- Decode the escape sequence after a backslash: the decoded character and
the input remaining after the escape, or `none` for an invalid escape. -/
def escSpec : List Char → Option (Char × List Char)
  | [] => none
  | e :: cs2 =>
    if e = 'u' then escHex cs2
    else
      match escChar e with
      | some d => some (d, cs2)
      | none => none

/-- Body of a JSON string after the opening quote: literal characters up to the
closing quote, escapes decoded, unescaped control characters rejected (Python's
strict mode). Fueled for totality; fuel at least the input length suffices. -/
def parseStrBody : Nat → List Char → Option (List Char × List Char)
  | 0, _ => none
  | _ + 1, [] => none
  | fuel + 1, c :: cs =>
    if c = '"' then some ([], cs)
    else if c = '\\' then
      match escSpec cs with
      | some (d, cs2) =>
        match parseStrBody fuel cs2 with
        | some (s, r) => some (d :: s, r)
        | none => none
      | none => none
    else if c.toNat < 32 then none
    else
      match parseStrBody fuel cs with
      | some (s, r) => some (c :: s, r)
      | none => none

/-- Longest digit span at the head of the input. -/
def takeDigits : List Char → List Char × List Char
  | [] => ([], [])
  | c :: cs =>
    if c.isDigit then
      let p := takeDigits cs
      (c :: p.1, p.2)
    else ([], c :: cs)

/-- Integer part of a JSON number: `0` or a nonzero digit followed by digits
(the `(0|[1-9][0-9]*)` alternative of Python's number regex). -/
def lexIntPart : List Char → Option (List Char × List Char)
  | [] => none
  | c :: cs =>
    if c = '0' then some ([c], cs)
    else if c.isDigit then
      let p := takeDigits cs
      some (c :: p.1, p.2)
    else none

/-- Continuation of the fraction part after its dot `c`: digits must follow,
otherwise the dot is not part of the number. -/
def lexFracTail (c : Char) : List Char → List Char × List Char
  | [] => ([], [c])
  | d :: ds =>
    if d.isDigit then
      let p := takeDigits (d :: ds)
      (c :: p.1, p.2)
    else ([], c :: d :: ds)

/-- Optional fraction part `(\.[0-9]+)?`: empty when absent. -/
def lexFracPart : List Char → List Char × List Char
  | [] => ([], [])
  | c :: cs =>
    if c = '.' then lexFracTail c cs
    else ([], c :: cs)

/-- Continuation of the exponent part after marker `c` and sign `s`: digits
must follow, otherwise the marker is not part of the number. -/
def lexExpDigits (c s : Char) : List Char → List Char × List Char
  | [] => ([], [c, s])
  | d :: ds =>
    if d.isDigit then
      let p := takeDigits (d :: ds)
      (c :: s :: p.1, p.2)
    else ([], c :: s :: d :: ds)

/-- Continuation of the exponent part after its marker `c`: an optional sign
then digits, otherwise the marker is not part of the number. -/
def lexExpTail (c : Char) : List Char → List Char × List Char
  | [] => ([], [c])
  | s :: cs2 =>
    if s = '+' || s = '-' then lexExpDigits c s cs2
    else if s.isDigit then
      let p := takeDigits (s :: cs2)
      (c :: p.1, p.2)
    else ([], c :: s :: cs2)

/-- Optional exponent part `([eE][-+]?[0-9]+)?`: empty when absent. -/
def lexExpPart : List Char → List Char × List Char
  | [] => ([], [])
  | c :: cs =>
    if c = 'e' || c = 'E' then lexExpTail c cs
    else ([], c :: cs)

/-- Lex a JSON number lexeme per `-?(0|[1-9][0-9]*)(\.[0-9]+)?([eE][-+]?[0-9]+)?`. -/
def lexNumber : List Char → Option (List Char × List Char)
  | [] => none
  | c :: cs =>
    if c = '-' then
      match lexIntPart cs with
      | some (i, r1) =>
        let f := lexFracPart r1
        let e := lexExpPart f.2
        some (c :: (i ++ f.1 ++ e.1), e.2)
      | none => none
    else
      match lexIntPart (c :: cs) with
      | some (i, r1) =>
        let f := lexFracPart r1
        let e := lexExpPart f.2
        some (i ++ f.1 ++ e.1, e.2)
      | none => none

/-- Strip an expected literal from the head of the input, returning the rest. -/
def stripLit : List Char → List Char → Option (List Char)
  | [], cs => some cs
  | _ :: _, [] => none
  | l :: ls, c :: cs => if c = l then stripLit ls cs else none

mutual

/-- Recursive-descent JSON value parser, dispatching on the head character as
Python's decoder does. Fueled; `2 * length + 2` fuel always suffices. -/
def parseVal : Nat → List Char → Option (Json × List Char)
  | 0, _ => none
  | _ + 1, [] => none
  | fuel + 1, c :: cs =>
    if c = '"' then
      match parseStrBody fuel cs with
      | some (body, r) => some (.str (String.mk body), r)
      | none => none
    else if c = lbrace then
      match skipWs cs with
      | [] => none
      | d :: r =>
        if d = rbrace then some (.obj [], r)
        else
          match parseMembers fuel (d :: r) with
          | some (ps, r2) => some (.obj ps, r2)
          | none => none
    else if c = '[' then
      match skipWs cs with
      | [] => none
      | d :: r =>
        if d = ']' then some (.arr [], r)
        else
          match parseItems fuel (d :: r) with
          | some (vs, r2) => some (.arr vs, r2)
          | none => none
    else if c = 't' then
      match stripLit ['r', 'u', 'e'] cs with
      | some r => some (.bool true, r)
      | none => none
    else if c = 'f' then
      match stripLit ['a', 'l', 's', 'e'] cs with
      | some r => some (.bool false, r)
      | none => none
    else if c = 'n' then
      match stripLit ['u', 'l', 'l'] cs with
      | some r => some (.null, r)
      | none => none
    else if c = 'N' then
      match stripLit ['a', 'N'] cs with
      | some r => some (.num "NaN", r)
      | none => none
    else if c = 'I' then
      match stripLit ['n', 'f', 'i', 'n', 'i', 't', 'y'] cs with
      | some r => some (.num "Infinity", r)
      | none => none
    else if c = '-' then
      match stripLit ['I', 'n', 'f', 'i', 'n', 'i', 't', 'y'] cs with
      | some r => some (.num "-Infinity", r)
      | none =>
        match lexNumber (c :: cs) with
        | some (ds, r) => some (.num (String.mk ds), r)
        | none => none
    else
      match lexNumber (c :: cs) with
      | some (ds, r) => some (.num (String.mk ds), r)
      | none => none

/-- Members of an object after its opening brace and any whitespace, positioned
at the opening quote of the first key; consumes through the closing brace. -/
def parseMembers : Nat → List Char → Option (List (String × Json) × List Char)
  | 0, _ => none
  | _ + 1, [] => none
  | fuel + 1, c :: cs =>
    if c = '"' then
      match parseStrBody fuel cs with
      | none => none
      | some (key, r1) =>
        match skipWs r1 with
        | [] => none
        | col :: r2 =>
          if col = ':' then
            match parseVal fuel (skipWs r2) with
            | none => none
            | some (v, r3) =>
              match skipWs r3 with
              | [] => none
              | d :: r4 =>
                if d = ',' then
                  match parseMembers fuel (skipWs r4) with
                  | some (ps, r5) => some ((String.mk key, v) :: ps, r5)
                  | none => none
                else if d = rbrace then some ([(String.mk key, v)], r4)
                else none
          else none
    else none

/-- Elements of an array after its opening bracket and any whitespace,
positioned at the first element; consumes through the closing bracket. -/
def parseItems : Nat → List Char → Option (List Json × List Char)
  | 0, _ => none
  | fuel + 1, cs =>
    match parseVal fuel cs with
    | none => none
    | some (v, r) =>
      match skipWs r with
      | [] => none
      | d :: r2 =>
        if d = ',' then
          match parseItems fuel (skipWs r2) with
          | some (vs, r3) => some (v :: vs, r3)
          | none => none
        else if d = ']' then some ([v], r2)
        else none

end

/-- `json.loads`: parse a complete JSON document, allowing surrounding
whitespace only; any other leftover input is an error ("Extra data"). -/
def json_loads (s : String) : Option Json :=
  match parseVal (2 * s.data.length + 2) (skipWs s.data) with
  | some (v, rem) => if skipWs rem = [] then some v else none
  | none => none

/-- The tail of the input up to and including its last brace-close (the greedy
`.*\x7d` part of the extraction regex). Empty if no brace-close occurs. -/
def upToLastClose : List Char → List Char
  | [] => []
  | c :: cs =>
    if cs.contains rbrace then c :: upToLastClose cs
    else if c = rbrace then [c]
    else []

/-- `re.search(r'\x7b.*\x7d', raw, re.DOTALL)`: the leftmost match starts at
the first brace-open followed (anywhere later) by a brace-close, and the greedy
`.*` extends it to the last brace-close of the whole text. -/
def extractSpan : List Char → Option (List Char)
  | [] => none
  | c :: cs =>
    if c = lbrace && cs.contains rbrace then some (c :: upToLastClose cs)
    else extractSpan cs

/-- Whether the text contains a brace-open followed (later) by a brace-close,
i.e. whether the extraction regex matches at all. -/
def hasBracePair : List Char → Bool
  | [] => false
  | c :: cs => (c = lbrace && cs.contains rbrace) || hasBracePair cs

/-- Outcome of the single blocking language-model invocation: the raw response
text on success, or the description of the raised provider exception. -/
inductive LLMOutcome where
  | success (text : String)
  | failure (err : String)

/-- Tagged outcome of `generate_resume`, per the spec's failure taxonomy.
`document` carries the parsed mapping; the error constructors carry the
diagnostic payload the code reports via `st.error`. -/
inductive GenResult where
  | document (v : Json)
  | modelInvocationError (err : String)
  | noJsonFound (raw : String)
  | jsonDecodeError (raw : String)

/-- The response-processing tail of `generate_resume` (source lines 89–100):
extract the brace span with `re.search(r'\x7b.*\x7d', raw, re.DOTALL)`; with
no match report "No valid JSON found" carrying the raw text; otherwise
`json.loads` the span, a decode error reporting "JSON Parsing Failed" with the
raw text, and a successful parse being returned as the document. -/
def processResponse (raw : String) : GenResult :=
  match extractSpan raw.data with
  | none => .noJsonFound raw
  | some span =>
    match json_loads (String.mk span) with
    | some v => .document v
    | none => .jsonDecodeError raw

/-- The normalized user input record built by the form handler: the scalar
contact fields plus the split-and-trimmed list fields (source lines 136–146). -/
structure InputRecord where
  name : String
  email : String
  phone : String
  location : String
  summary : String
  experience : List String
  education : List String
  skills : List String
  certifications : List String

/-- Lowercase hexadecimal digit. -/
def hexDigit (n : Nat) : Char :=
  if n < 10 then Char.ofNat (48 + n) else Char.ofNat (87 + n)

/-- Four lowercase hexadecimal digits, as in `json.dumps` unicode escapes. -/
def toHex4 (n : Nat) : List Char :=
  [hexDigit (n / 4096 % 16), hexDigit (n / 256 % 16), hexDigit (n / 16 % 16), hexDigit (n % 16)]

/-- `json.dumps` escaping of one character with the default `ensure_ascii`:
everything outside printable ASCII becomes a `\uXXXX` escape (a surrogate pair
above the basic plane), plus the short escapes for quote, backslash and the
named control characters. -/
def pyJsonEscape (c : Char) : List Char :=
  if c = '"' then ['\\', '"']
  else if c = '\\' then ['\\', '\\']
  else if c = '\n' then ['\\', 'n']
  else if c = '\r' then ['\\', 'r']
  else if c = '\t' then ['\\', 't']
  else if c.toNat = 8 then ['\\', 'b']
  else if c.toNat = 12 then ['\\', 'f']
  else if 32 ≤ c.toNat && c.toNat ≤ 126 then [c]
  else if c.toNat < 65536 then '\\' :: 'u' :: toHex4 c.toNat
  else
    '\\' :: 'u' :: toHex4 (55296 + (c.toNat - 65536) / 1024) ++
      '\\' :: 'u' :: toHex4 (56320 + (c.toNat - 65536) % 1024)

/-- `json.dumps` of a string value. -/
def dumpsStr (s : String) : String :=
  "\"" ++ String.mk (s.data.flatMap pyJsonEscape) ++ "\""

/-- `json.dumps` of a list of strings at one level of nesting under
`indent=2`: `[]` when empty, else one four-space-indented line per element. -/
def dumpsStrList (xs : List String) : String :=
  if xs.isEmpty then "[]"
  else "[\n    " ++ String.intercalate ",\n    " (xs.map dumpsStr) ++ "\n  ]"

/-- `json.dumps(user_data, indent=2)` for the form's `user_data` dictionary,
whose insertion order fixes the key order (source lines 136–146). -/
def dumpsUserData (u : InputRecord) : String :=
  "\x7b\n" ++ String.intercalate ",\n"
    [ "  " ++ dumpsStr "name" ++ ": " ++ dumpsStr u.name
    , "  " ++ dumpsStr "email" ++ ": " ++ dumpsStr u.email
    , "  " ++ dumpsStr "phone" ++ ": " ++ dumpsStr u.phone
    , "  " ++ dumpsStr "location" ++ ": " ++ dumpsStr u.location
    , "  " ++ dumpsStr "summary" ++ ": " ++ dumpsStr u.summary
    , "  " ++ dumpsStr "experience" ++ ": " ++ dumpsStrList u.experience
    , "  " ++ dumpsStr "education" ++ ": " ++ dumpsStrList u.education
    , "  " ++ dumpsStr "skills" ++ ": " ++ dumpsStrList u.skills
    , "  " ++ dumpsStr "certifications" ++ ": " ++ dumpsStrList u.certifications
    ] ++ "\n\x7d"

/-- The fixed instruction prompt (source lines 70–83): the triple-quoted
f-string with the serialized input record interpolated. -/
def promptFor (u : InputRecord) : String :=
  "\n    Create a professional resume based on the following information:\n\n    "
    ++ dumpsUserData u
    ++ "\n\n    Requirements:\n      - Use professional language.\n      - Include all provided details.\n      - Format the response as valid JSON with these fields:\n        name, email, phone, location, summary, experience (list), education (list), skills (list), certifications (list).\n      - Do not include any additional text outside the JSON structure.\n      - Ensure proper escaping of special characters.\n      - Structure the JSON properly.\n    "

/-- `generate_resume` (source lines 68–103): build the prompt, invoke the
model once, and process the response. A provider exception is caught by the
`except Exception` arm and reported as the model-invocation failure; a
successful response goes through extraction and parsing. -/
def generate_resume (llm : String → LLMOutcome) (user_data : InputRecord) : GenResult :=
  match llm (promptFor user_data) with
  | .failure e => .modelInvocationError e
  | .success raw => processResponse raw

/-- The two reportlab paragraph styles drawn from the sample stylesheet plus
the body style (`Heading1`, `Heading2`, `Normal`). -/
inductive PStyle where
  | heading1
  | heading2
  | normal
deriving DecidableEq

/-- A reportlab flowable as appended by `create_pdf`: a styled paragraph or a
spacer of the given dimensions. -/
inductive Flowable where
  | para (text : String) (style : PStyle)
  | spacer (w h : Nat)
deriving DecidableEq

/-- A section value of a ResumeDocument: a scalar string or an ordered
sequence of strings (the spec's untyped union, which the renderer inspects
with `isinstance(..., list)`). -/
inductive FieldValue where
  | scalar (s : String)
  | items (xs : List String)
deriving DecidableEq

/-- A ResumeDocument as consumed by the renderer: the scalar identity fields
and the five optional sections, each independently absent, scalar or a list
(spec section 3). Absent fields model keys missing from the parsed mapping. -/
structure ResumeDoc where
  name : Option String
  email : Option String
  phone : Option String
  location : Option String
  summary : Option FieldValue
  experience : Option FieldValue
  education : Option FieldValue
  skills : Option FieldValue
  certifications : Option FieldValue

/-- `content.get(section)` for the five section keys. -/
def getSection (d : ResumeDoc) (k : String) : Option FieldValue :=
  if k = "summary" then d.summary
  else if k = "experience" then d.experience
  else if k = "education" then d.education
  else if k = "skills" then d.skills
  else if k = "certifications" then d.certifications
  else none

/-- Python truthiness of `content.get(section)`: a missing key, the empty
string and the empty list are falsy; everything else here is truthy. -/
def truthy : Option FieldValue → Bool
  | none => false
  | some (.scalar s) => s != ""
  | some (.items xs) => !xs.isEmpty

/-- `str.capitalize()`: first character uppercased, the rest lowercased. -/
def pyCapitalize (s : String) : String :=
  match s.data with
  | [] => ""
  | c :: rest => String.mk (c.toUpper :: rest.map Char.toLower)

/-- The section loop body of `create_pdf` (source lines 53–62): a truthy
section contributes its capitalized heading, a spacer, one bulleted paragraph
per element for a list value or a single paragraph for a scalar, and a
trailing spacer; a falsy section contributes nothing. -/
def sectionBlock (content : ResumeDoc) (s : String) : List Flowable :=
  if truthy (getSection content s) then
    [Flowable.para (pyCapitalize s) .heading2, Flowable.spacer 1 12]
    ++ (match getSection content s with
        | some (.items xs) => xs.map fun item => Flowable.para ("• " ++ item) .normal
        | some (.scalar t) => [Flowable.para t .normal]
        | none => [])
    ++ [Flowable.spacer 1 24]
  else []

/-- The five optional section keys, in the renderer's fixed order. -/
def sections : List String :=
  ["summary", "experience", "education", "skills", "certifications"]

/-- The contact line `f"{content.get('email', '')} | {content.get('phone', ''
)} | {content.get('location', '')}"` (source line 47). -/
def contactLine (content : ResumeDoc) : String :=
  content.email.getD "" ++ " | " ++ content.phone.getD "" ++ " | "
    ++ content.location.getD ""

/-- `create_pdf` (source lines 29–65), at the level of the flowable sequence
handed to `doc.build`: the name header, a spacer, the contact line, a spacer,
then the five sections in order. The byte serialization performed by the
reportlab engine on this sequence is outside the repository and is not
modelled; the flowable sequence is the renderer's output contract. -/
def create_pdf (content : ResumeDoc) : List Flowable :=
  [Flowable.para (content.name.getD "") .heading1, Flowable.spacer 1 12,
   Flowable.para (contactLine content) .normal, Flowable.spacer 1 24]
  ++ sections.foldr (fun s acc => sectionBlock content s ++ acc) []

/-- The empty ResumeDocument (every field absent). -/
def emptyDoc : ResumeDoc :=
  ⟨none, none, none, none, none, none, none, none, none⟩

/-- Side condition under which a parsed value survives appending input: a
number lexeme must be followed by a character that cannot extend the number
token (anything but a dot or an exponent marker); other values end at a
definite terminator and need nothing. -/
def numSafe : Json → List Char → Prop
  | .num _, r => ∃ h hs, r = h :: hs ∧ h ≠ '.' ∧ h ≠ 'e' ∧ h ≠ 'E'
  | _, _ => True

/-! ## Helper lemmas: extraction -/

/-- Scanning skips any prefix free of brace-opens. -/
theorem extractSpan_append_of_not_mem (p cs : List Char) (hp : lbrace ∉ p) :
    extractSpan (p ++ cs) = extractSpan cs := by
  induction p with
  | nil => rfl
  | cons c p ih =>
    have hc : c ≠ lbrace := fun h => hp (h ▸ List.mem_cons_self c p)
    have hrest : lbrace ∉ p := fun h => hp (List.mem_cons_of_mem c h)
    rw [List.cons_append, extractSpan]
    simp only [hc, decide_False, Bool.false_and, if_neg, Bool.false_eq_true, not_false_iff]
    exact ih hrest

/-- With no brace-close in the tail `s`, the greedy `.*` stops exactly at the
shown brace-close. -/
theorem upToLastClose_decomp (m s : List Char) (hs : rbrace ∉ s) :
    upToLastClose (m ++ rbrace :: s) = m ++ [rbrace] := by
  induction m with
  | nil => simp [upToLastClose, hs]
  | cons c m ih =>
    have hmem : rbrace ∈ m ++ rbrace :: s := by simp
    simp only [List.cons_append, upToLastClose]
    simp [hmem, ih]

/-- The extraction regex on a text whose first brace-open is the shown one and
whose last brace-close is the shown one: the match is exactly the inclusive
span between them. -/
theorem extractSpan_eq_span (p m s : List Char) (hp : lbrace ∉ p) (hs : rbrace ∉ s) :
    extractSpan (p ++ lbrace :: m ++ rbrace :: s) = some (lbrace :: (m ++ [rbrace])) := by
  rw [List.append_assoc, extractSpan_append_of_not_mem p _ hp]
  have hmem : rbrace ∈ m ++ rbrace :: s := by simp
  rw [show lbrace :: m ++ rbrace :: s = lbrace :: (m ++ rbrace :: s) from rfl, extractSpan]
  simp [hmem, upToLastClose_decomp m s hs]

/-- The scanner finds a match exactly when some brace-open is followed,
anywhere later, by a brace-close. -/
theorem extractSpan_isSome_iff_hasBracePair (cs : List Char) :
    (extractSpan cs).isSome = hasBracePair cs := by
  induction cs with
  | nil => rfl
  | cons c cs ih =>
    rw [extractSpan, hasBracePair]
    by_cases hc : c = lbrace
    · by_cases hm : rbrace ∈ cs
      · simp [hc, hm]
      · simp [hc, hm, ih]
    · simp [hc, ih]

/-- A brace pair in scanning order is the same thing as a decomposition of the
text around a brace-open and a later brace-close. -/
theorem hasBracePair_iff_decomp (cs : List Char) :
    hasBracePair cs = true ↔ ∃ p m s, cs = p ++ lbrace :: m ++ rbrace :: s := by
  constructor
  · intro h
    induction cs with
    | nil => simp [hasBracePair] at h
    | cons c cs ih =>
      simp only [hasBracePair, Bool.or_eq_true, Bool.and_eq_true, decide_eq_true_eq] at h
      rcases h with ⟨hc, hmem⟩ | h
      · have : rbrace ∈ cs := by simpa using hmem
        obtain ⟨m, s, rfl⟩ := List.append_of_mem this
        exact ⟨[], m, s, by simp [hc]⟩
      · obtain ⟨p, m, s, rfl⟩ := ih h
        exact ⟨c :: p, m, s, rfl⟩
  · rintro ⟨p, m, s, rfl⟩
    induction p with
    | nil =>
      have hmem : (m ++ rbrace :: s).contains rbrace = true := by simp
      simp [hasBracePair, hmem]
    | cons c p ih =>
      simp only [List.cons_append, hasBracePair, Bool.or_eq_true]
      exact Or.inr ih

/-! ## Claim theorems: extraction and parsing pipeline -/

/-- **C1.** For every raw response text containing a brace-open followed later
by a brace-close, extraction selects exactly the substring from the first
brace-open through the last brace-close, surrounding prose ignored; and on
the response `Here you go:\n\x7b"name":"A"\x7d\nEnjoy!` the pipeline succeeds
and parses the one-field document mapping `name` to `"A"`. -/
theorem extraction_selects_first_open_to_last_close :
    (∀ (raw : String) (p m s : List Char),
        raw.data = p ++ lbrace :: m ++ rbrace :: s → lbrace ∉ p → rbrace ∉ s →
        extractSpan raw.data = some (lbrace :: (m ++ [rbrace]))) ∧
      processResponse "Here you go:\n\x7b\"name\":\"A\"\x7d\nEnjoy!" =
        .document (.obj [("name", .str "A")]) := by
  constructor
  · intro raw p m s hdec hp hs
    rw [hdec]
    exact extractSpan_eq_span p m s hp hs
  · rfl

/-- Witness for C1: the theorem applied to the concrete response
`x\x7by\x7dz`, whose decomposition hypotheses hold by computation. -/
theorem extraction_selects_first_open_to_last_close_witness :
    extractSpan ("x\x7by\x7dz").data = some (lbrace :: (['y'] ++ [rbrace])) :=
  extraction_selects_first_open_to_last_close.1 "x\x7by\x7dz" ['x'] ['y'] ['z']
    (by decide) (by decide) (by decide)

/-- **C3.** A raw response with no brace-open followed later by a brace-close
yields the `NoJsonFound` failure carrying the full raw text. -/
theorem no_brace_pair_reports_noJsonFound :
    ∀ raw : String, (∀ p m s : List Char, raw.data ≠ p ++ lbrace :: m ++ rbrace :: s) →
      processResponse raw = .noJsonFound raw := by
  intro raw h
  have hbp : hasBracePair raw.data = false := by
    cases hb : hasBracePair raw.data with
    | false => rfl
    | true =>
      obtain ⟨p, m, s, hdec⟩ := (hasBracePair_iff_decomp raw.data).mp hb
      exact absurd hdec (h p m s)
  have hnone : extractSpan raw.data = none := by
    have := extractSpan_isSome_iff_hasBracePair raw.data
    rw [hbp] at this
    exact Option.not_isSome_iff_eq_none.mp (by simp [this])
  simp [processResponse, hnone]

/-- Witness for C3: the theorem applied to a brace-free response. -/
theorem no_brace_pair_reports_noJsonFound_witness :
    processResponse "plain text" = .noJsonFound "plain text" :=
  no_brace_pair_reports_noJsonFound "plain text" (fun p m s hdec =>
    absurd ((hasBracePair_iff_decomp ("plain text").data).mpr ⟨p, m, s, hdec⟩) (by decide))

/-- **C4.** When a brace span is extracted but it is not valid JSON, the
result is the `JsonDecodeError` failure carrying the full raw text, not just
the failed span; in particular the trailing-comma response
`\x7b"name": "A",\x7d` yields it. -/
theorem invalid_span_reports_jsonDecodeError :
    (∀ (raw : String) (span : List Char),
        extractSpan raw.data = some span → json_loads (String.mk span) = none →
        processResponse raw = .jsonDecodeError raw) ∧
      processResponse "\x7b\"name\": \"A\",\x7d" =
        .jsonDecodeError "\x7b\"name\": \"A\",\x7d" := by
  constructor
  · intro raw span hspan hparse
    simp [processResponse, hspan, hparse]
  · rfl

/-- Witness for C4: the theorem applied to the trailing-comma response, its
hypotheses discharged by computation. -/
theorem invalid_span_reports_jsonDecodeError_witness :
    processResponse "a \x7b\"k\": 1,\x7d b" = .jsonDecodeError "a \x7b\"k\": 1,\x7d b" :=
  invalid_span_reports_jsonDecodeError.1 "a \x7b\"k\": 1,\x7d b"
    ("\x7b\"k\": 1,\x7d").data (by decide) (by rfl)

/-- **C5.** A successful parse of the extracted span is returned directly as
the document, with no further schema validation; on the exact response
`\x7b"name":"Jane Doe","email":"jane@x.com"\x7d` the document maps `name` and
`email` as given and contains no other field. -/
theorem successful_parse_returned_unvalidated :
    (∀ (raw : String) (span : List Char) (v : Json),
        extractSpan raw.data = some span → json_loads (String.mk span) = some v →
        processResponse raw = .document v) ∧
      processResponse "\x7b\"name\":\"Jane Doe\",\"email\":\"jane@x.com\"\x7d" =
        .document (.obj [("name", .str "Jane Doe"), ("email", .str "jane@x.com")]) := by
  constructor
  · intro raw span v hspan hparse
    simp [processResponse, hspan, hparse]
  · rfl

/-- Witness for C5: the theorem applied to a concrete response with an extra,
unexpected field, which the returned mapping preserves. -/
theorem successful_parse_returned_unvalidated_witness :
    processResponse "\x7b\"extra\":true\x7d" = .document (.obj [("extra", .bool true)]) :=
  successful_parse_returned_unvalidated.1 "\x7b\"extra\":true\x7d"
    ("\x7b\"extra\":true\x7d").data (.obj [("extra", .bool true)]) (by decide) (by rfl)

/-- **C9.** The extraction-and-parse step is deterministic: identical raw
texts produce identical results (same document or same failure kind). -/
theorem extraction_deterministic :
    ∀ r1 r2 : String, r1 = r2 → processResponse r1 = processResponse r2 := by
  intro r1 r2 h
  rw [h]

/-- Witness for C9: determinism applied at a concrete raw text. -/
theorem extraction_deterministic_witness :
    processResponse "\x7b\x7d" = processResponse "\x7b\x7d" :=
  extraction_deterministic "\x7b\x7d" "\x7b\x7d" rfl

/-- **C2.** For every input record with the required fields populated and
every behaviour of the model oracle, `generate_resume` returns a document or
exactly one of the three failure kinds — it is a total function, never an
escaping exception — and a transport/model failure is surfaced once, as
`ModelInvocationError` carrying the underlying error description, with no
internal retry. -/
theorem generate_total_with_failure_taxonomy :
    ∀ (llm : String → LLMOutcome) (u : InputRecord),
      u.name ≠ "" → u.email ≠ "" → u.experience ≠ [] → u.skills ≠ [] →
      ((∃ v, generate_resume llm u = .document v) ∨
        (∃ e, generate_resume llm u = .modelInvocationError e) ∨
        (∃ r, generate_resume llm u = .noJsonFound r) ∨
        (∃ r, generate_resume llm u = .jsonDecodeError r)) ∧
      (∀ e, llm (promptFor u) = .failure e →
        generate_resume llm u = .modelInvocationError e) := by
  intro llm u _ _ _ _
  constructor
  · cases hg : generate_resume llm u with
    | document v => exact Or.inl ⟨v, rfl⟩
    | modelInvocationError e => exact Or.inr (Or.inl ⟨e, rfl⟩)
    | noJsonFound r => exact Or.inr (Or.inr (Or.inl ⟨r, rfl⟩))
    | jsonDecodeError r => exact Or.inr (Or.inr (Or.inr ⟨r, rfl⟩))
  · intro e he
    unfold generate_resume
    rw [he]

/-- Witness for C2: a populated record and an oracle whose single invocation
fails with the description `boom`; the failure is surfaced as-is. -/
theorem generate_total_with_failure_taxonomy_witness :
    generate_resume (fun _ => .failure "boom")
        ⟨"Jane", "j@x.com", "", "", "", ["dev"], [], ["python"], []⟩ =
      .modelInvocationError "boom" :=
  (generate_total_with_failure_taxonomy (fun _ => .failure "boom")
      ⟨"Jane", "j@x.com", "", "", "", ["dev"], [], ["python"], []⟩
      (by decide) (by decide) (by decide) (by decide)).2 "boom" rfl

/-- **C7.** Every rendered document carries, right after the title block,
exactly one contact line joining email, phone and location with `" | "`,
absent fields contributing the empty string; the line is emitted even when
all three are absent, so the empty document still renders a non-empty
flowable sequence with the empty title block and the contact line. -/
theorem contact_line_always_emitted :
    (∀ d : ResumeDoc, ∃ rest,
        create_pdf d =
          Flowable.para (d.name.getD "") .heading1 :: Flowable.spacer 1 12 ::
            Flowable.para (d.email.getD "" ++ " | " ++ d.phone.getD "" ++ " | "
              ++ d.location.getD "") .normal :: Flowable.spacer 1 24 :: rest) ∧
      create_pdf emptyDoc =
        [Flowable.para "" .heading1, Flowable.spacer 1 12,
         Flowable.para " |  | " .normal, Flowable.spacer 1 24] ∧
      create_pdf emptyDoc ≠ [] := by
  refine ⟨fun d => ⟨_, rfl⟩, by rfl, by decide⟩

/-- Witness for C7: the theorem applied to the empty document, where all
three contact fields are absent and the line is still emitted. -/
theorem contact_line_always_emitted_witness :
    create_pdf emptyDoc =
      [Flowable.para "" .heading1, Flowable.spacer 1 12,
       Flowable.para " |  | " .normal, Flowable.spacer 1 24] :=
  contact_line_always_emitted.2.1

/-- **C8.** The renderer is total over ResumeDocuments with any subset of
optional fields: it always produces a (non-empty) flowable sequence, and an
absent — or falsy — section is rendered as pure omission, contributing no
flowables at all, so no failure can originate in the renderer. -/
theorem render_total_absence_is_omission :
    ∀ d : ResumeDoc,
      0 < (create_pdf d).length ∧
      (∀ k, getSection d k = none → sectionBlock d k = []) ∧
      (∀ k, truthy (getSection d k) = false → sectionBlock d k = []) := by
  intro d
  refine ⟨?_, ?_, ?_⟩
  · simp [create_pdf]
  · intro k hk
    simp [sectionBlock, hk, truthy]
  · intro k hk
    simp [sectionBlock, hk]

/-- Witness for C8: the empty document still renders, and its absent
`summary` section contributes nothing. -/
theorem render_total_absence_is_omission_witness :
    0 < (create_pdf emptyDoc).length ∧ sectionBlock emptyDoc "summary" = [] :=
  ⟨(render_total_absence_is_omission emptyDoc).1,
    (render_total_absence_is_omission emptyDoc).2.1 "summary" rfl⟩

/-- Shape of anything a section contributes: its section is truthy, and the
flowable is the capitalized heading in the section style, a body paragraph in
the normal style, or a spacer. -/
theorem mem_sectionBlock_shape (d : ResumeDoc) (k : String) (x : Flowable)
    (hx : x ∈ sectionBlock d k) :
    truthy (getSection d k) = true ∧
      (x = Flowable.para (pyCapitalize k) .heading2 ∨
        (∃ t, x = Flowable.para t .normal) ∨ (∃ a b, x = Flowable.spacer a b)) := by
  unfold sectionBlock at hx
  by_cases h : truthy (getSection d k)
  · refine ⟨h, ?_⟩
    rw [if_pos h] at hx
    rcases hv : getSection d k with _ | fv
    · rw [hv] at hx
      simp at hx
      rcases hx with h1 | h1 | h1
      · exact Or.inl h1
      · exact Or.inr (Or.inr ⟨1, 12, h1⟩)
      · exact Or.inr (Or.inr ⟨1, 24, h1⟩)
    · rcases fv with t | xs
      · rw [hv] at hx
        simp at hx
        rcases hx with h1 | h1 | h1 | h1
        · exact Or.inl h1
        · exact Or.inr (Or.inr ⟨1, 12, h1⟩)
        · exact Or.inr (Or.inl ⟨t, h1⟩)
        · exact Or.inr (Or.inr ⟨1, 24, h1⟩)
      · rw [hv] at hx
        simp at hx
        rcases hx with h1 | h1 | ⟨it, hit, h1⟩ | h1
        · exact Or.inl h1
        · exact Or.inr (Or.inr ⟨1, 12, h1⟩)
        · exact Or.inr (Or.inl ⟨"• " ++ it, h1.symm⟩)
        · exact Or.inr (Or.inr ⟨1, 24, h1⟩)
  · rw [if_neg h] at hx
    simp at hx

/-- **C6.** The renderer emits the five optional sections in the fixed order
summary, experience, education, skills, certifications; a present, truthy
section gets its capitalized field name as a heading followed by one bulleted
line per element for a sequence value or a single paragraph for a scalar; an
absent, empty-string or empty-sequence section is skipped with no heading —
in particular a document without a `summary` field renders no "Summary"
heading anywhere. -/
theorem sections_rendered_in_order_with_shape :
    ∀ d : ResumeDoc,
      (create_pdf d =
        [Flowable.para (d.name.getD "") .heading1, Flowable.spacer 1 12,
         Flowable.para (contactLine d) .normal, Flowable.spacer 1 24]
        ++ sectionBlock d "summary" ++ sectionBlock d "experience"
        ++ sectionBlock d "education" ++ sectionBlock d "skills"
        ++ sectionBlock d "certifications") ∧
      (∀ k t, getSection d k = some (.scalar t) → t ≠ "" →
        sectionBlock d k =
          [Flowable.para (pyCapitalize k) .heading2, Flowable.spacer 1 12,
           Flowable.para t .normal, Flowable.spacer 1 24]) ∧
      (∀ k xs, getSection d k = some (.items xs) → xs ≠ [] →
        sectionBlock d k =
          [Flowable.para (pyCapitalize k) .heading2, Flowable.spacer 1 12]
          ++ xs.map (fun item => Flowable.para ("• " ++ item) .normal)
          ++ [Flowable.spacer 1 24]) ∧
      (∀ k, getSection d k = none ∨ getSection d k = some (.scalar "") ∨
          getSection d k = some (.items []) →
        sectionBlock d k = []) ∧
      (d.summary = none → Flowable.para "Summary" .heading2 ∉ create_pdf d) := by
  intro d
  refine ⟨?_, ?_, ?_, ?_, ?_⟩
  · simp [create_pdf, sections]
  · intro k t hk ht
    simp [sectionBlock, hk, truthy, ht]
  · intro k xs hk hxs
    simp [sectionBlock, hk, truthy, hxs]
  · intro k hk
    rcases hk with hk | hk | hk <;> simp [sectionBlock, hk, truthy]
  · intro hnone hmem
    simp only [create_pdf, sections, List.foldr_cons, List.foldr_nil,
      List.append_nil, List.mem_append, List.mem_cons, List.mem_singleton,
      List.not_mem_nil, or_false] at hmem
    rcases hmem with (h | h | h | h) | h | h | h | h | h
    · exact absurd h (by simp)
    · exact absurd h (by simp)
    · exact absurd h (by simp)
    · exact absurd h (by simp)
    · have := mem_sectionBlock_shape d "summary" _ h
      rw [show getSection d "summary" = d.summary from rfl, hnone] at this
      simpa [truthy] using this.1
    · rcases (mem_sectionBlock_shape d "experience" _ h).2 with h1 | ⟨t, h1⟩ | ⟨a, b, h1⟩
      · exact absurd h1 (by simp [pyCapitalize])
      · exact absurd h1 (by simp)
      · exact absurd h1 (by simp)
    · rcases (mem_sectionBlock_shape d "education" _ h).2 with h1 | ⟨t, h1⟩ | ⟨a, b, h1⟩
      · exact absurd h1 (by simp [pyCapitalize])
      · exact absurd h1 (by simp)
      · exact absurd h1 (by simp)
    · rcases (mem_sectionBlock_shape d "skills" _ h).2 with h1 | ⟨t, h1⟩ | ⟨a, b, h1⟩
      · exact absurd h1 (by simp [pyCapitalize])
      · exact absurd h1 (by simp)
      · exact absurd h1 (by simp)
    · rcases (mem_sectionBlock_shape d "certifications" _ h).2 with h1 | ⟨t, h1⟩ | ⟨a, b, h1⟩
      · exact absurd h1 (by simp [pyCapitalize])
      · exact absurd h1 (by simp)
      · exact absurd h1 (by simp)

/-- Witness for C6: a document whose `experience` is a sequence of three
strings renders three bulleted lines under the "Experience" heading, and with
`summary` absent no "Summary" heading appears. -/
theorem sections_rendered_in_order_with_shape_witness :
    sectionBlock ⟨some "N", none, none, none, none,
        some (.items ["a", "b", "c"]), none, none, none⟩ "experience" =
      [Flowable.para "Experience" .heading2, Flowable.spacer 1 12,
       Flowable.para "• a" .normal, Flowable.para "• b" .normal,
       Flowable.para "• c" .normal, Flowable.spacer 1 24] ∧
    Flowable.para "Summary" .heading2 ∉
      create_pdf ⟨some "N", none, none, none, none,
        some (.items ["a", "b", "c"]), none, none, none⟩ := by
  constructor
  · have h := (sections_rendered_in_order_with_shape
      ⟨some "N", none, none, none, none,
        some (.items ["a", "b", "c"]), none, none, none⟩).2.2.1 "experience"
      ["a", "b", "c"] rfl (by decide)
    simpa using h
  · exact (sections_rendered_in_order_with_shape
      ⟨some "N", none, none, none, none,
        some (.items ["a", "b", "c"]), none, none, none⟩).2.2.2.2 rfl

/-! ## Helper lemmas: parser extension under appended input -/

/-- Appending input after a successful whitespace skip shifts the result. -/
theorem skipWs_append (xs t : List Char) (y : Char) (ys : List Char)
    (h : skipWs xs = y :: ys) : skipWs (xs ++ t) = y :: (ys ++ t) := by
  induction xs with
  | nil => simp [skipWs] at h
  | cons c cs ih =>
    rw [List.cons_append, skipWs]
    rw [skipWs] at h
    by_cases hw : isJsonWs c
    · rw [if_pos hw] at h ⊢
      exact ih h
    · rw [if_neg hw] at h ⊢
      cases h
      rfl

/-- Skipping an all-whitespace block continues into the appended input. -/
theorem skipWs_append_of_nil (xs t : List Char) (h : skipWs xs = []) :
    skipWs (xs ++ t) = skipWs t := by
  induction xs with
  | nil => rfl
  | cons c cs ih =>
    rw [skipWs] at h
    by_cases hw : isJsonWs c
    · rw [if_pos hw] at h
      rw [List.cons_append, skipWs, if_pos hw]
      exact ih h
    · rw [if_neg hw] at h
      cases h

/-- A block containing a non-whitespace character does not skip to nothing. -/
theorem skipWs_ne_nil_of_mem (xs : List Char) (c : Char) (hc : c ∈ xs)
    (hw : isJsonWs c = false) : skipWs xs ≠ [] := by
  induction xs with
  | nil => cases hc
  | cons x cs ih =>
    rw [skipWs]
    by_cases hx : isJsonWs x
    · rw [if_pos hx]
      rcases List.mem_cons.mp hc with rfl | hc2
      · rw [hx] at hw; cases hw
      · exact ih hc2
    · rw [if_neg hx]
      simp

/-- A matched literal is unaffected by appended input. -/
theorem stripLit_append (l cs t r : List Char) (h : stripLit l cs = some r) :
    stripLit l (cs ++ t) = some (r ++ t) := by
  induction l generalizing cs r with
  | nil =>
    cases h
    rfl
  | cons x ls ih =>
    cases cs with
    | nil => cases h
    | cons c cs2 =>
      rw [List.cons_append, stripLit]
      rw [stripLit] at h
      by_cases hx : c = x
      · rw [if_pos hx] at h ⊢
        exact ih cs2 r h
      · rw [if_neg hx] at h
        cases h

/-- A digit span that stopped at a non-digit is unaffected by appended input. -/
theorem takeDigits_append (cs t : List Char) (ds : List Char) (d : Char) (r : List Char)
    (h : takeDigits cs = (ds, d :: r)) :
    takeDigits (cs ++ t) = (ds, d :: (r ++ t)) := by
  induction cs generalizing ds with
  | nil => simp [takeDigits] at h
  | cons c cs2 ih =>
    rw [List.cons_append, takeDigits]
    rw [takeDigits] at h
    by_cases hd : c.isDigit
    · rw [if_pos hd] at h ⊢
      have h2 : (takeDigits cs2).2 = d :: r := congrArg Prod.snd h
      have h3 : takeDigits cs2 = ((takeDigits cs2).1, d :: r) := by rw [← h2]
      have h1 : c :: (takeDigits cs2).1 = ds := congrArg Prod.fst h
      simp only [ih (takeDigits cs2).1 h3, ← h1]
    · rw [if_neg hd] at h ⊢
      cases h
      rfl

/-- An integer part with a nonempty remainder is unaffected by appended
input. -/
theorem lexIntPart_append (cs t i : List Char) (d : Char) (r2 : List Char)
    (h : lexIntPart cs = some (i, d :: r2)) :
    lexIntPart (cs ++ t) = some (i, d :: (r2 ++ t)) := by
  cases cs with
  | nil => cases h
  | cons c cs2 =>
    rw [List.cons_append, lexIntPart]
    rw [lexIntPart] at h
    by_cases h0 : c = '0'
    · rw [if_pos h0] at h ⊢
      cases h
      rfl
    · rw [if_neg h0] at h ⊢
      by_cases hd : c.isDigit
      · rw [if_pos hd] at h ⊢
        simp only at h ⊢
        have h1 : c :: (takeDigits cs2).1 = i := by
          have := congrArg (fun o => o.map Prod.fst) h
          simpa using this
        have h2 : (takeDigits cs2).2 = d :: r2 := by
          have := congrArg (fun o => o.map Prod.snd) h
          simpa using this
        have h3 : takeDigits cs2 = ((takeDigits cs2).1, d :: r2) := by rw [← h2]
        rw [takeDigits_append cs2 t (takeDigits cs2).1 d r2 h3, ← h1]
      · rw [if_neg hd] at h
        cases h

/-- A successful integer part pins the head of its input to a digit. -/
theorem lexIntPart_shape (cs : List Char) (p : List Char × List Char)
    (h : lexIntPart cs = some p) :
    ∃ dd ds, cs = dd :: ds ∧ (dd = '0' ∨ dd.isDigit = true) := by
  cases cs with
  | nil => cases h
  | cons c cs2 =>
    rw [lexIntPart] at h
    by_cases h0 : c = '0'
    · exact ⟨c, cs2, rfl, Or.inl h0⟩
    · rw [if_neg h0] at h
      by_cases hd : c.isDigit
      · exact ⟨c, cs2, rfl, Or.inr hd⟩
      · rw [if_neg hd] at h
        cases h

/-- Fraction continuation after the dot, under appended input. -/
theorem lexFracTail_append (c : Char) (cs1 t f : List Char) (d : Char) (rr : List Char)
    (h : lexFracTail c cs1 = (f, d :: rr)) (hne : cs1 ≠ []) :
    lexFracTail c (cs1 ++ t) = (f, d :: (rr ++ t)) := by
  cases cs1 with
  | nil => exact absurd rfl hne
  | cons e cs2 =>
    rw [List.cons_append, lexFracTail]
    rw [lexFracTail] at h
    by_cases he : e.isDigit
    · simp only [if_pos he] at h ⊢
      have h1 : c :: (takeDigits (e :: cs2)).1 = f := congrArg Prod.fst h
      have h2 : (takeDigits (e :: cs2)).2 = d :: rr := congrArg Prod.snd h
      have h3 : takeDigits (e :: cs2) = ((takeDigits (e :: cs2)).1, d :: rr) := by rw [← h2]
      have h4 := takeDigits_append (e :: cs2) t _ d rr h3
      rw [List.cons_append] at h4
      simp only [h4, ← h1]
    · simp only [if_neg he] at h ⊢
      cases h
      rfl

/-- A fraction part with a nonempty remainder — not a bare dot at the end of
the input — is unaffected by appended input. -/
theorem lexFracPart_append (r1 t f : List Char) (d : Char) (rr : List Char)
    (h : lexFracPart r1 = (f, d :: rr)) (hdot : r1 ≠ ['.']) :
    lexFracPart (r1 ++ t) = (f, d :: (rr ++ t)) := by
  cases r1 with
  | nil => cases h
  | cons c cs1 =>
    rw [List.cons_append, lexFracPart]
    rw [lexFracPart] at h
    by_cases hc : c = '.'
    · rw [if_pos hc] at h ⊢
      have hne : cs1 ≠ [] := by
        intro hnil
        exact hdot (by rw [hnil, hc])
      exact lexFracTail_append c cs1 t f d rr h hne
    · rw [if_neg hc] at h ⊢
      cases h
      rfl

/-- Exponent digits after marker and sign, under appended input. -/
theorem lexExpDigits_append (c s : Char) (cs2 t e1 : List Char) (d : Char) (rr : List Char)
    (h : lexExpDigits c s cs2 = (e1, d :: rr)) (hne : cs2 ≠ []) :
    lexExpDigits c s (cs2 ++ t) = (e1, d :: (rr ++ t)) := by
  cases cs2 with
  | nil => exact absurd rfl hne
  | cons dd cs3 =>
    rw [List.cons_append, lexExpDigits]
    rw [lexExpDigits] at h
    by_cases hdd : dd.isDigit
    · simp only [if_pos hdd] at h ⊢
      have h1 : c :: s :: (takeDigits (dd :: cs3)).1 = e1 := congrArg Prod.fst h
      have h2 : (takeDigits (dd :: cs3)).2 = d :: rr := congrArg Prod.snd h
      have h3 : takeDigits (dd :: cs3) = ((takeDigits (dd :: cs3)).1, d :: rr) := by rw [← h2]
      have h4 := takeDigits_append (dd :: cs3) t _ d rr h3
      rw [List.cons_append] at h4
      simp only [h4, ← h1]
    · simp only [if_neg hdd] at h ⊢
      cases h
      rfl

/-- Exponent continuation after its marker, under appended input; the
remainder must not itself start at the marker (no marker at end). -/
theorem lexExpTail_append (c : Char) (cs1 t e1 : List Char) (d : Char) (rr : List Char)
    (h : lexExpTail c cs1 = (e1, d :: rr)) (hd : d ≠ c) :
    lexExpTail c (cs1 ++ t) = (e1, d :: (rr ++ t)) := by
  cases cs1 with
  | nil =>
    rw [lexExpTail] at h
    cases h
    exact absurd rfl hd
  | cons s cs2 =>
    rw [List.cons_append, lexExpTail]
    rw [lexExpTail] at h
    by_cases hs : (s = '+' || s = '-') = true
    · rw [if_pos hs] at h ⊢
      have hne : cs2 ≠ [] := by
        intro hnil
        rw [hnil, lexExpDigits] at h
        cases h
        exact absurd rfl hd
      exact lexExpDigits_append c s cs2 t e1 d rr h hne
    · rw [if_neg hs] at h ⊢
      by_cases hsd : s.isDigit
      · simp only [if_pos hsd] at h ⊢
        have h1 : c :: (takeDigits (s :: cs2)).1 = e1 := congrArg Prod.fst h
        have h2 : (takeDigits (s :: cs2)).2 = d :: rr := congrArg Prod.snd h
        have h3 : takeDigits (s :: cs2) = ((takeDigits (s :: cs2)).1, d :: rr) := by rw [← h2]
        have h4 := takeDigits_append (s :: cs2) t _ d rr h3
        rw [List.cons_append] at h4
        simp only [h4, ← h1]
      · simp only [if_neg hsd] at h ⊢
        cases h
        exact absurd rfl hd

/-- An exponent part whose remainder does not start with an exponent marker is
unaffected by appended input. -/
theorem lexExpPart_append (r2a t e1 : List Char) (d : Char) (rr : List Char)
    (h : lexExpPart r2a = (e1, d :: rr)) (hd1 : d ≠ 'e') (hd2 : d ≠ 'E') :
    lexExpPart (r2a ++ t) = (e1, d :: (rr ++ t)) := by
  cases r2a with
  | nil => cases h
  | cons c cs1 =>
    rw [List.cons_append, lexExpPart]
    rw [lexExpPart] at h
    by_cases hc : (c = 'e' || c = 'E') = true
    · rw [if_pos hc] at h ⊢
      have hdc : d ≠ c := by
        rcases Bool.or_eq_true .. ▸ hc with h2 | h2
        · simp only [decide_eq_true_eq] at h2
          exact h2 ▸ hd1
        · simp only [decide_eq_true_eq] at h2
          exact h2 ▸ hd2
      exact lexExpTail_append c cs1 t e1 d rr h hdc
    · rw [if_neg hc] at h ⊢
      cases h
      rfl

/-- A number lexeme with remainder pins its fraction chain: the input to the
fraction stage is nonempty, is not a bare dot, and leaves a nonempty
remainder for the exponent stage. -/
theorem lexNumber_tailchain (r1 : List Char) (d : Char) (rr : List Char)
    (h : (lexExpPart (lexFracPart r1).2).2 = d :: rr) (hd1 : d ≠ '.') :
    r1 ≠ [] ∧ r1 ≠ ['.'] ∧ (lexFracPart r1).2 ≠ [] := by
  refine ⟨?_, ?_, ?_⟩
  · intro hnil
    rw [hnil] at h
    cases h
  · intro hdot
    rw [hdot] at h
    have h2 : (lexExpPart (lexFracPart ['.']).2).2 = ['.'] := by rfl
    rw [h2] at h
    cases h
    exact hd1 rfl
  · intro hnil
    rw [hnil] at h
    cases h

/-- A number lexeme followed by a character that cannot extend the number
token is unaffected by appended input. -/
theorem lexNumber_append (cs t ds : List Char) (d : Char) (rr : List Char)
    (h : lexNumber cs = some (ds, d :: rr))
    (hd1 : d ≠ '.') (hd2 : d ≠ 'e') (hd3 : d ≠ 'E') :
    lexNumber (cs ++ t) = some (ds, d :: (rr ++ t)) := by
  cases cs with
  | nil => cases h
  | cons c cs2 =>
    rw [List.cons_append, lexNumber]
    rw [lexNumber] at h
    by_cases hm : c = '-'
    · rw [if_pos hm] at h ⊢
      cases hint : lexIntPart cs2 with
      | none =>
        rw [hint] at h
        cases h
      | some p =>
        obtain ⟨i, r1⟩ := p
        rw [hint] at h
        simp only at h
        have hinj := Option.some.inj h
        have hds : c :: (i ++ (lexFracPart r1).1 ++ (lexExpPart (lexFracPart r1).2).1) = ds :=
          congrArg Prod.fst hinj
        have hrem : (lexExpPart (lexFracPart r1).2).2 = d :: rr := congrArg Prod.snd hinj
        obtain ⟨hr1ne, hr1dot, hf2ne⟩ := lexNumber_tailchain r1 d rr hrem hd1
        obtain ⟨d1, r1a, rfl⟩ := List.exists_cons_of_ne_nil hr1ne
        obtain ⟨d2, rr2, hf2⟩ := List.exists_cons_of_ne_nil hf2ne
        have hfrac : lexFracPart (d1 :: r1a) = ((lexFracPart (d1 :: r1a)).1, d2 :: rr2) := by
          rw [← hf2]
        have hexp : lexExpPart (d2 :: rr2) =
            ((lexExpPart (d2 :: rr2)).1, d :: rr) := by
          rw [← hf2, ← hrem]
        rw [lexIntPart_append cs2 t i d1 r1a hint]
        simp only
        have hfa := lexFracPart_append (d1 :: r1a) t (lexFracPart (d1 :: r1a)).1 d2 rr2
          hfrac hr1dot
        rw [List.cons_append] at hfa
        rw [hfa]
        simp only
        have hea := lexExpPart_append (d2 :: rr2) t (lexExpPart (d2 :: rr2)).1 d rr
          hexp hd2 hd3
        rw [List.cons_append] at hea
        rw [hea]
        simp only
        rw [← hds, ← hf2]
    · rw [if_neg hm] at h ⊢
      cases hint : lexIntPart (c :: cs2) with
      | none =>
        rw [hint] at h
        cases h
      | some p =>
        obtain ⟨i, r1⟩ := p
        rw [hint] at h
        simp only at h
        have hinj := Option.some.inj h
        have hds : i ++ (lexFracPart r1).1 ++ (lexExpPart (lexFracPart r1).2).1 = ds :=
          congrArg Prod.fst hinj
        have hrem : (lexExpPart (lexFracPart r1).2).2 = d :: rr := congrArg Prod.snd hinj
        obtain ⟨hr1ne, hr1dot, hf2ne⟩ := lexNumber_tailchain r1 d rr hrem hd1
        obtain ⟨d1, r1a, rfl⟩ := List.exists_cons_of_ne_nil hr1ne
        obtain ⟨d2, rr2, hf2⟩ := List.exists_cons_of_ne_nil hf2ne
        have hfrac : lexFracPart (d1 :: r1a) = ((lexFracPart (d1 :: r1a)).1, d2 :: rr2) := by
          rw [← hf2]
        have hexp : lexExpPart (d2 :: rr2) =
            ((lexExpPart (d2 :: rr2)).1, d :: rr) := by
          rw [← hf2, ← hrem]
        have hia := lexIntPart_append (c :: cs2) t i d1 r1a hint
        rw [List.cons_append] at hia
        rw [hia]
        simp only
        have hfa := lexFracPart_append (d1 :: r1a) t (lexFracPart (d1 :: r1a)).1 d2 rr2
          hfrac hr1dot
        rw [List.cons_append] at hfa
        rw [hfa]
        simp only
        have hea := lexExpPart_append (d2 :: rr2) t (lexExpPart (d2 :: rr2)).1 d rr
          hexp hd2 hd3
        rw [List.cons_append] at hea
        rw [hea]
        simp only
        rw [← hds, ← hf2]

/-- Decoded hexadecimal escape digits are unaffected by appended input. -/
theorem escHex_append (cs t : List Char) (d : Char) (cs2 : List Char)
    (h : escHex cs = some (d, cs2)) :
    escHex (cs ++ t) = some (d, cs2 ++ t) := by
  rcases cs with _ | ⟨h1, _ | ⟨h2, _ | ⟨h3, _ | ⟨h4, cs3⟩⟩⟩⟩
  · cases h
  · cases h
  · cases h
  · cases h
  · rw [escHex] at h
    by_cases hhex : (isHexCh h1 && isHexCh h2 && isHexCh h3 && isHexCh h4) = true
    · rw [if_pos hhex] at h
      cases h
      simp only [List.cons_append]
      rw [escHex, if_pos hhex]
    · rw [if_neg hhex] at h
      cases h

/-- A decoded escape sequence is unaffected by appended input. -/
theorem escSpec_append (cs t : List Char) (d : Char) (cs2 : List Char)
    (h : escSpec cs = some (d, cs2)) :
    escSpec (cs ++ t) = some (d, cs2 ++ t) := by
  cases cs with
  | nil => cases h
  | cons e rest =>
    rw [escSpec] at h
    rw [List.cons_append, escSpec]
    by_cases hu : e = 'u'
    · rw [if_pos hu] at h ⊢
      exact escHex_append rest t d cs2 h
    · rw [if_neg hu] at h ⊢
      cases hec : escChar e with
      | none =>
        rw [hec] at h
        exact Option.noConfusion h
      | some ch =>
        rw [hec] at h
        simp only [hec]
        cases h
        rfl

/-- A parsed string body — which always ends at its closing quote — is
unaffected by appended input, at any sufficient fuel. -/
theorem parseStrBody_append (f : Nat) :
    ∀ (g : Nat), f ≤ g → ∀ (cs b r t : List Char),
      parseStrBody f cs = some (b, r) →
      parseStrBody g (cs ++ t) = some (b, r ++ t) := by
  induction f with
  | zero =>
    intro g _ cs b r t h
    cases h
  | succ f ih =>
    intro g hfg cs b r t h
    cases g with
    | zero => exact absurd hfg (by omega)
    | succ g =>
      have hfg2 : f ≤ g := Nat.succ_le_succ_iff.mp hfg
      cases cs with
      | nil => cases h
      | cons c cs1 =>
        rw [parseStrBody] at h
        rw [List.cons_append, parseStrBody]
        by_cases hq : c = '"'
        · rw [if_pos hq] at h ⊢
          cases h
          rfl
        · rw [if_neg hq] at h ⊢
          by_cases hb : c = '\\'
          · rw [if_pos hb] at h ⊢
            cases hesc : escSpec cs1 with
            | none =>
              simp only [hesc] at h
              exact Option.noConfusion h
            | some p =>
              obtain ⟨dch, cs2⟩ := p
              simp only [hesc] at h
              cases hrec : parseStrBody f cs2 with
              | none =>
                simp only [hrec] at h
                exact Option.noConfusion h
              | some q =>
                obtain ⟨s1, r1⟩ := q
                simp only [hrec] at h
                cases h
                simp only [escSpec_append cs1 t dch cs2 hesc,
                  ih g hfg2 cs2 s1 r t hrec]
          · rw [if_neg hb] at h ⊢
            by_cases hctl : c.toNat < 32
            · rw [if_pos hctl] at h
              cases h
            · rw [if_neg hctl] at h ⊢
              cases hrec : parseStrBody f cs1 with
              | none =>
                simp only [hrec] at h
                exact Option.noConfusion h
              | some q =>
                obtain ⟨s1, r1⟩ := q
                simp only [hrec] at h
                cases h
                simp only [ih g hfg2 cs1 s1 r t hrec]

/-- The value parser rejects empty input at any fuel. -/
theorem parseVal_nil (f : Nat) : parseVal f [] = none := by
  cases f with
  | zero => rfl
  | succ f => rfl

/-- The object-members parser rejects empty input at any fuel. -/
theorem parseMembers_nil (f : Nat) : parseMembers f [] = none := by
  cases f with
  | zero => rfl
  | succ f => rfl

/-- The array-items parser rejects empty input at any fuel. -/
theorem parseItems_nil (f : Nat) : parseItems f [] = none := by
  cases f with
  | zero => rfl
  | succ f =>
    rw [parseItems, parseVal_nil]

/-- If skipping whitespace in a remainder reveals a delimiter that cannot
extend a number token, the remainder is numSafe for any value: its head is
either a whitespace character or that delimiter. -/
theorem numSafe_of_skipWs (v : Json) (r3 : List Char) (dch : Char) (r4 : List Char)
    (hsw : skipWs r3 = dch :: r4)
    (h1 : dch ≠ '.') (h2 : dch ≠ 'e') (h3 : dch ≠ 'E') : numSafe v r3 := by
  cases v with
  | num lx =>
    show ∃ h hs, r3 = h :: hs ∧ h ≠ '.' ∧ h ≠ 'e' ∧ h ≠ 'E'
    cases r3 with
    | nil => cases hsw
    | cons hh hhs =>
      by_cases hw : isJsonWs hh
      · have hw2 : ((hh = ' ' ∨ hh = '\t') ∨ hh = '\n') ∨ hh = '\r' := by
          simpa [isJsonWs] using hw
        rcases hw2 with ((rfl | rfl) | rfl) | rfl
        · exact ⟨_, _, rfl, by decide, by decide, by decide⟩
        · exact ⟨_, _, rfl, by decide, by decide, by decide⟩
        · exact ⟨_, _, rfl, by decide, by decide, by decide⟩
        · exact ⟨_, _, rfl, by decide, by decide, by decide⟩
      · rw [skipWs, if_neg hw] at hsw
        obtain ⟨rfl, -⟩ := List.cons.inj hsw
        exact ⟨_, _, rfl, h1, h2, h3⟩
  | null => trivial
  | bool b => trivial
  | str s => trivial
  | arr xs => trivial
  | obj fs => trivial

/-- Fuel-monotone extension of the JSON value/members/items parsers under
appended input: a successful parse whose remainder cannot extend the last
token is reproduced, with the appendix shifted into the remainder, at any
fuel at least the original. -/
theorem parse_ext : ∀ g : Nat,
    (∀ f, f ≤ g → ∀ cs v r t, parseVal f cs = some (v, r) → numSafe v r →
      parseVal g (cs ++ t) = some (v, r ++ t)) ∧
    (∀ f, f ≤ g → ∀ cs ps r t, parseMembers f cs = some (ps, r) →
      parseMembers g (cs ++ t) = some (ps, r ++ t)) ∧
    (∀ f, f ≤ g → ∀ cs vs r t, parseItems f cs = some (vs, r) →
      parseItems g (cs ++ t) = some (vs, r ++ t)) := by
  intro g
  induction g with
  | zero =>
    refine ⟨?_, ?_, ?_⟩
    · intro f hf cs v r t h _
      rw [Nat.le_zero.mp hf] at h
      exact Option.noConfusion h
    · intro f hf cs ps r t h
      rw [Nat.le_zero.mp hf] at h
      exact Option.noConfusion h
    · intro f hf cs vs r t h
      rw [Nat.le_zero.mp hf] at h
      exact Option.noConfusion h
  | succ g ih =>
    obtain ⟨ihv, ihm, ihi⟩ := ih
    refine ⟨?_, ?_, ?_⟩
    · -- parseVal
      intro f hf cs v r t h hsafe
      cases f with
      | zero => exact Option.noConfusion h
      | succ f =>
        have hf2 : f ≤ g := Nat.succ_le_succ_iff.mp hf
        cases cs with
        | nil => exact Option.noConfusion h
        | cons c cs1 =>
          rw [parseVal] at h
          rw [List.cons_append, parseVal]
          by_cases h1 : c = '"'
          · rw [if_pos h1] at h ⊢
            cases hsb : parseStrBody f cs1 with
            | none =>
              simp only [hsb] at h
              exact Option.noConfusion h
            | some p =>
              obtain ⟨body, r1⟩ := p
              simp only [hsb] at h
              cases h
              simp only [parseStrBody_append f g hf2 cs1 body r t hsb]
          · rw [if_neg h1] at h ⊢
            by_cases h2 : c = lbrace
            · rw [if_pos h2] at h ⊢
              cases hsw : skipWs cs1 with
              | nil =>
                simp only [hsw] at h
                exact Option.noConfusion h
              | cons dch rr =>
                simp only [hsw] at h
                simp only [skipWs_append cs1 t dch rr hsw]
                by_cases h3 : dch = rbrace
                · rw [if_pos h3] at h ⊢
                  cases h
                  rfl
                · rw [if_neg h3] at h ⊢
                  cases hpm : parseMembers f (dch :: rr) with
                  | none =>
                    simp only [hpm] at h
                    exact Option.noConfusion h
                  | some q =>
                    obtain ⟨ps, r2⟩ := q
                    simp only [hpm] at h
                    cases h
                    have hm := ihm f hf2 (dch :: rr) ps r t hpm
                    rw [List.cons_append] at hm
                    simp only [hm]
            · rw [if_neg h2] at h ⊢
              by_cases h3 : c = '['
              · rw [if_pos h3] at h ⊢
                cases hsw : skipWs cs1 with
                | nil =>
                  simp only [hsw] at h
                  exact Option.noConfusion h
                | cons dch rr =>
                  simp only [hsw] at h
                  simp only [skipWs_append cs1 t dch rr hsw]
                  by_cases h4 : dch = ']'
                  · rw [if_pos h4] at h ⊢
                    cases h
                    rfl
                  · rw [if_neg h4] at h ⊢
                    cases hpi : parseItems f (dch :: rr) with
                    | none =>
                      simp only [hpi] at h
                      exact Option.noConfusion h
                    | some q =>
                      obtain ⟨vs, r2⟩ := q
                      simp only [hpi] at h
                      cases h
                      have hm := ihi f hf2 (dch :: rr) vs r t hpi
                      rw [List.cons_append] at hm
                      simp only [hm]
              · rw [if_neg h3] at h ⊢
                by_cases h4 : c = 't'
                · rw [if_pos h4] at h ⊢
                  cases hsl : stripLit ['r', 'u', 'e'] cs1 with
                  | none =>
                    simp only [hsl] at h
                    exact Option.noConfusion h
                  | some rr =>
                    simp only [hsl] at h
                    cases h
                    simp only [stripLit_append _ cs1 t r hsl]
                · rw [if_neg h4] at h ⊢
                  by_cases h5 : c = 'f'
                  · rw [if_pos h5] at h ⊢
                    cases hsl : stripLit ['a', 'l', 's', 'e'] cs1 with
                    | none =>
                      simp only [hsl] at h
                      exact Option.noConfusion h
                    | some rr =>
                      simp only [hsl] at h
                      cases h
                      simp only [stripLit_append _ cs1 t r hsl]
                  · rw [if_neg h5] at h ⊢
                    by_cases h6 : c = 'n'
                    · rw [if_pos h6] at h ⊢
                      cases hsl : stripLit ['u', 'l', 'l'] cs1 with
                      | none =>
                        simp only [hsl] at h
                        exact Option.noConfusion h
                      | some rr =>
                        simp only [hsl] at h
                        cases h
                        simp only [stripLit_append _ cs1 t r hsl]
                    · rw [if_neg h6] at h ⊢
                      by_cases h7 : c = 'N'
                      · rw [if_pos h7] at h ⊢
                        cases hsl : stripLit ['a', 'N'] cs1 with
                        | none =>
                          simp only [hsl] at h
                          exact Option.noConfusion h
                        | some rr =>
                          simp only [hsl] at h
                          cases h
                          simp only [stripLit_append _ cs1 t r hsl]
                      · rw [if_neg h7] at h ⊢
                        by_cases h8 : c = 'I'
                        · rw [if_pos h8] at h ⊢
                          cases hsl : stripLit ['n', 'f', 'i', 'n', 'i', 't', 'y'] cs1 with
                          | none =>
                            simp only [hsl] at h
                            exact Option.noConfusion h
                          | some rr =>
                            simp only [hsl] at h
                            cases h
                            simp only [stripLit_append _ cs1 t r hsl]
                        · rw [if_neg h8] at h ⊢
                          by_cases h9 : c = '-'
                          · rw [if_pos h9] at h ⊢
                            cases hsl : stripLit ['I', 'n', 'f', 'i', 'n', 'i', 't', 'y'] cs1 with
                            | some rr =>
                              simp only [hsl] at h
                              cases h
                              simp only [stripLit_append _ cs1 t r hsl]
                            | none =>
                              simp only [hsl] at h
                              cases hln : lexNumber (c :: cs1) with
                              | none =>
                                simp only [hln] at h
                                exact Option.noConfusion h
                              | some q =>
                                obtain ⟨ds, r2⟩ := q
                                simp only [hln] at h
                                cases h
                                obtain ⟨hh, hhs, hreq, hne1, hne2, hne3⟩ := hsafe
                                subst hreq
                                have hln2 := hln
                                rw [lexNumber, if_pos h9] at hln2
                                cases hint : lexIntPart cs1 with
                                | none =>
                                  simp only [hint] at hln2
                                  exact Option.noConfusion hln2
                                | some p2 =>
                                  obtain ⟨dd, ds2, hcs1, hdd⟩ := lexIntPart_shape cs1 p2 hint
                                  subst hcs1
                                  have hddI : dd ≠ 'I' := by
                                    rcases hdd with h0 | hdig
                                    · rw [h0]
                                      decide
                                    · intro heq
                                      rw [heq] at hdig
                                      exact absurd hdig (by decide)
                                  have hstrip : stripLit ['I', 'n', 'f', 'i', 'n', 'i', 't', 'y']
                                      ((dd :: ds2) ++ t) = none := by
                                    rw [List.cons_append, stripLit, if_neg hddI]
                                  have hna := lexNumber_append (c :: dd :: ds2) t ds hh hhs hln
                                    hne1 hne2 hne3
                                  simp only [List.cons_append] at hna hstrip ⊢
                                  simp only [hstrip, hna]
                          · rw [if_neg h9] at h ⊢
                            cases hln : lexNumber (c :: cs1) with
                            | none =>
                              simp only [hln] at h
                              exact Option.noConfusion h
                            | some q =>
                              obtain ⟨ds, r2⟩ := q
                              simp only [hln] at h
                              cases h
                              obtain ⟨hh, hhs, hreq, hne1, hne2, hne3⟩ := hsafe
                              subst hreq
                              have hna := lexNumber_append (c :: cs1) t ds hh hhs hln
                                hne1 hne2 hne3
                              simp only [List.cons_append] at hna ⊢
                              simp only [hna]
    · -- parseMembers
      intro f hf cs ps r t h
      cases f with
      | zero => exact Option.noConfusion h
      | succ f =>
        have hf2 : f ≤ g := Nat.succ_le_succ_iff.mp hf
        cases cs with
        | nil => exact Option.noConfusion h
        | cons c cs1 =>
          rw [parseMembers] at h
          rw [List.cons_append, parseMembers]
          by_cases h1 : c = '"'
          · rw [if_pos h1] at h ⊢
            cases hsb : parseStrBody f cs1 with
            | none =>
              simp only [hsb] at h
              exact Option.noConfusion h
            | some p =>
              obtain ⟨key, r1⟩ := p
              simp only [hsb] at h
              simp only [parseStrBody_append f g hf2 cs1 key r1 t hsb]
              cases hsw : skipWs r1 with
              | nil =>
                simp only [hsw] at h
                exact Option.noConfusion h
              | cons col r2 =>
                simp only [hsw] at h
                simp only [skipWs_append r1 t col r2 hsw]
                by_cases hcol : col = ':'
                · rw [if_pos hcol] at h ⊢
                  cases hpv : parseVal f (skipWs r2) with
                  | none =>
                    simp only [hpv] at h
                    exact Option.noConfusion h
                  | some q =>
                    obtain ⟨v, r3⟩ := q
                    simp only [hpv] at h
                    have hr2ne : skipWs r2 ≠ [] := by
                      intro hnil
                      rw [hnil, parseVal_nil] at hpv
                      exact Option.noConfusion hpv
                    obtain ⟨y, ys, hy⟩ := List.exists_cons_of_ne_nil hr2ne
                    have heq2 : skipWs (r2 ++ t) = skipWs r2 ++ t := by
                      rw [skipWs_append r2 t y ys hy, hy, List.cons_append]
                    cases hsw3 : skipWs r3 with
                    | nil =>
                      simp only [hsw3] at h
                      exact Option.noConfusion h
                    | cons dch r4 =>
                      simp only [hsw3] at h
                      by_cases hcomma : dch = ','
                      · rw [if_pos hcomma] at h
                        cases hpm2 : parseMembers f (skipWs r4) with
                        | none =>
                          simp only [hpm2] at h
                          exact Option.noConfusion h
                        | some q2 =>
                          obtain ⟨ps2, r5⟩ := q2
                          simp only [hpm2] at h
                          cases h
                          have hns : numSafe v r3 := by
                            refine numSafe_of_skipWs v r3 dch r4 hsw3 ?_ ?_ ?_
                            · rw [hcomma]; decide
                            · rw [hcomma]; decide
                            · rw [hcomma]; decide
                          have hv2 := ihv f hf2 (skipWs r2) v r3 t hpv hns
                          rw [← heq2] at hv2
                          simp only [hv2]
                          simp only [skipWs_append r3 t dch r4 hsw3]
                          rw [if_pos hcomma]
                          have hr4ne : skipWs r4 ≠ [] := by
                            intro hnil
                            rw [hnil, parseMembers_nil] at hpm2
                            exact Option.noConfusion hpm2
                          obtain ⟨y2, ys2, hy2⟩ := List.exists_cons_of_ne_nil hr4ne
                          have heq4 : skipWs (r4 ++ t) = skipWs r4 ++ t := by
                            rw [skipWs_append r4 t y2 ys2 hy2, hy2, List.cons_append]
                          have hm2 := ihm f hf2 (skipWs r4) ps2 r t hpm2
                          rw [← heq4] at hm2
                          simp only [hm2]
                      · by_cases hrb : dch = rbrace
                        · rw [if_neg hcomma, if_pos hrb] at h
                          cases h
                          have hns : numSafe v r3 := by
                            refine numSafe_of_skipWs v r3 dch r hsw3 ?_ ?_ ?_
                            · rw [hrb]; decide
                            · rw [hrb]; decide
                            · rw [hrb]; decide
                          have hv2 := ihv f hf2 (skipWs r2) v r3 t hpv hns
                          rw [← heq2] at hv2
                          simp only [hv2]
                          simp only [skipWs_append r3 t dch r hsw3]
                          rw [if_neg hcomma, if_pos hrb]
                        · rw [if_neg hcomma, if_neg hrb] at h
                          exact Option.noConfusion h
                · rw [if_neg hcol] at h
                  exact Option.noConfusion h
          · rw [if_neg h1] at h
            exact Option.noConfusion h
    · -- parseItems
      intro f hf cs vs r t h
      cases f with
      | zero => exact Option.noConfusion h
      | succ f =>
        have hf2 : f ≤ g := Nat.succ_le_succ_iff.mp hf
        rw [parseItems] at h
        rw [parseItems]
        cases hpv : parseVal f cs with
        | none =>
          simp only [hpv] at h
          exact Option.noConfusion h
        | some q =>
          obtain ⟨v, r1⟩ := q
          simp only [hpv] at h
          cases hsw : skipWs r1 with
          | nil =>
            simp only [hsw] at h
            exact Option.noConfusion h
          | cons dch r2 =>
            simp only [hsw] at h
            by_cases hcomma : dch = ','
            · rw [if_pos hcomma] at h
              cases hpi2 : parseItems f (skipWs r2) with
              | none =>
                simp only [hpi2] at h
                exact Option.noConfusion h
              | some q2 =>
                obtain ⟨vs2, r3⟩ := q2
                simp only [hpi2] at h
                cases h
                have hns : numSafe v r1 := by
                  refine numSafe_of_skipWs v r1 dch r2 hsw ?_ ?_ ?_
                  · rw [hcomma]; decide
                  · rw [hcomma]; decide
                  · rw [hcomma]; decide
                have hv2 := ihv f hf2 cs v r1 t hpv hns
                simp only [hv2]
                simp only [skipWs_append r1 t dch r2 hsw]
                rw [if_pos hcomma]
                have hr2ne : skipWs r2 ≠ [] := by
                  intro hnil
                  rw [hnil, parseItems_nil] at hpi2
                  exact Option.noConfusion hpi2
                obtain ⟨y2, ys2, hy2⟩ := List.exists_cons_of_ne_nil hr2ne
                have heq4 : skipWs (r2 ++ t) = skipWs r2 ++ t := by
                  rw [skipWs_append r2 t y2 ys2 hy2, hy2, List.cons_append]
                have hi2 := ihi f hf2 (skipWs r2) vs2 r t hpi2
                rw [← heq4] at hi2
                simp only [hi2]
            · by_cases hket : dch = ']'
              · rw [if_neg hcomma, if_pos hket] at h
                cases h
                have hns : numSafe v r1 := by
                  refine numSafe_of_skipWs v r1 dch r hsw ?_ ?_ ?_
                  · rw [hket]; decide
                  · rw [hket]; decide
                  · rw [hket]; decide
                have hv2 := ihv f hf2 cs v r1 t hpv hns
                simp only [hv2]
                simp only [skipWs_append r1 t dch r hsw]
                rw [if_neg hcomma, if_pos hket]
              · rw [if_neg hcomma, if_neg hket] at h
                exact Option.noConfusion h

/-- A value parsed from input that starts at a brace-open is an object. -/
theorem parseVal_obj_shape (f : Nat) (tl : List Char) (v : Json) (r : List Char)
    (h : parseVal f (lbrace :: tl) = some (v, r)) : ∃ ps, v = .obj ps := by
  cases f with
  | zero => exact Option.noConfusion h
  | succ f =>
    rw [parseVal] at h
    have hq : ¬(lbrace = '"') := by decide
    rw [if_neg hq, if_pos rfl] at h
    cases hsw : skipWs tl with
    | nil =>
      simp only [hsw] at h
      exact Option.noConfusion h
    | cons dch rr =>
      simp only [hsw] at h
      by_cases h3 : dch = rbrace
      · rw [if_pos h3] at h
        cases h
        exact ⟨[], rfl⟩
      · rw [if_neg h3] at h
        cases hpm : parseMembers f (dch :: rr) with
        | none =>
          simp only [hpm] at h
          exact Option.noConfusion h
        | some q =>
          obtain ⟨ps, r2⟩ := q
          simp only [hpm] at h
          cases h
          exact ⟨ps, rfl⟩

/-- Appending anything containing a non-whitespace character after a complete
JSON document that starts at a brace-open makes the whole text unparseable:
the parser consumes the original document and then finds extra data. -/
theorem json_loads_append_extra (o1 : String) (u : List Char) (v : Json)
    (hhead : ∃ tl, o1.data = lbrace :: tl)
    (hload : json_loads o1 = some v)
    (hu : ∃ c ∈ u, isJsonWs c = false) :
    json_loads (String.mk (o1.data ++ u)) = none := by
  obtain ⟨tl, htl⟩ := hhead
  obtain ⟨cnw, hcmem, hcnw⟩ := hu
  have hnws : ¬(isJsonWs lbrace = true) := by decide
  have hskip : skipWs o1.data = o1.data := by
    rw [htl, skipWs, if_neg hnws]
  unfold json_loads at hload
  rw [hskip] at hload
  cases hpv : parseVal (2 * o1.data.length + 2) o1.data with
  | none =>
    rw [hpv] at hload
    exact Option.noConfusion hload
  | some q =>
    obtain ⟨v1, rem⟩ := q
    rw [hpv] at hload
    simp only at hload
    by_cases hrem : skipWs rem = []
    · have hobj : ∃ ps, v1 = .obj ps := by
        rw [htl] at hpv
        exact parseVal_obj_shape _ tl v1 rem hpv
      obtain ⟨ps, rfl⟩ := hobj
      have hns : numSafe (Json.obj ps) rem := trivial
      have hF12 : 2 * o1.data.length + 2 ≤ 2 * (o1.data ++ u).length + 2 := by
        rw [List.length_append]
        omega
      have hext := (parse_ext (2 * (o1.data ++ u).length + 2)).1
        (2 * o1.data.length + 2) hF12 o1.data (Json.obj ps) rem u hpv hns
      have hsk2 : skipWs (o1.data ++ u) = o1.data ++ u := by
        rw [htl, List.cons_append, skipWs, if_neg hnws, ← List.cons_append, ← htl]
      show (match parseVal (2 * (o1.data ++ u).length + 2) (skipWs (o1.data ++ u)) with
        | some (w, rem2) => if skipWs rem2 = [] then some w else none
        | none => none) = none
      rw [hsk2, hext]
      simp only
      have hne : skipWs (rem ++ u) ≠ [] := by
        rw [skipWs_append_of_nil rem u hrem]
        exact skipWs_ne_nil_of_mem u cnw hcmem hcnw
      rw [if_neg hne]
    · rw [if_neg hrem] at hload
      exact Option.noConfusion hload

/-- **C10.** A raw response carrying two disjoint complete JSON objects with
text between them is extracted as one span from the first object's opening
brace through the last closing brace; that span has extra data after the
first object, so it is not valid JSON, and `generate` reports a decode
failure rather than returning the first object — as on the response
`\x7b"a":1\x7d and \x7b"b":2\x7d`. -/
theorem multiple_objects_yield_decode_failure :
    (∀ (pre mid post : List Char) (o1 o2 : String) (f1 f2 : List (String × Json))
        (raw : String),
        lbrace ∉ pre →
        (∃ tl, o1.data = lbrace :: tl) →
        json_loads o1 = some (.obj f1) →
        (∃ tl, o2.data = lbrace :: tl) →
        json_loads o2 = some (.obj f2) →
        (∃ ini, o2.data = ini ++ [rbrace]) →
        rbrace ∉ post →
        raw.data = pre ++ o1.data ++ mid ++ o2.data ++ post →
        processResponse raw = .jsonDecodeError raw) ∧
      processResponse "\x7b\"a\":1\x7d and \x7b\"b\":2\x7d" =
        .jsonDecodeError "\x7b\"a\":1\x7d and \x7b\"b\":2\x7d" := by
  constructor
  · intro pre mid post o1 o2 f1 f2 raw hpre hh1 hl1 hh2 hl2 hini hpost hraw
    obtain ⟨tl1, htl1⟩ := hh1
    obtain ⟨tl2, htl2⟩ := hh2
    obtain ⟨ini, hinie⟩ := hini
    have hdecomp : raw.data = pre ++ lbrace :: (tl1 ++ mid ++ ini) ++ rbrace :: post := by
      rw [hraw, htl1, hinie]
      simp [List.append_assoc]
    have hspan := extractSpan_eq_span pre (tl1 ++ mid ++ ini) post hpre hpost
    have hspan_eq : lbrace :: ((tl1 ++ mid ++ ini) ++ [rbrace]) =
        o1.data ++ (mid ++ o2.data) := by
      rw [htl1, hinie]
      simp [List.append_assoc]
    have hu : ∃ c ∈ mid ++ o2.data, isJsonWs c = false := by
      refine ⟨lbrace, List.mem_append_right mid ?_, by decide⟩
      rw [htl2]
      exact List.mem_cons_self _ _
    have hnone := json_loads_append_extra o1 (mid ++ o2.data) (.obj f1) ⟨tl1, htl1⟩ hl1 hu
    simp only [processResponse, hdecomp, hspan, hspan_eq, hnone]
  · rfl

/-- Witness for C10: a concrete response with prose around two complete JSON
objects, all hypotheses discharged by computation, yields the decode
failure. -/
theorem multiple_objects_yield_decode_failure_witness :
    processResponse "ok \x7b\"a\":1\x7d and \x7b\"b\":2\x7d!" =
      .jsonDecodeError "ok \x7b\"a\":1\x7d and \x7b\"b\":2\x7d!" :=
  multiple_objects_yield_decode_failure.1 ("ok ").data (" and ").data ['!']
    "\x7b\"a\":1\x7d" "\x7b\"b\":2\x7d" [("a", .num "1")] [("b", .num "2")]
    "ok \x7b\"a\":1\x7d and \x7b\"b\":2\x7d!"
    (by decide) ⟨("\"a\":1\x7d").data, by decide⟩ (by rfl)
    ⟨("\"b\":2\x7d").data, by decide⟩ (by rfl)
    ⟨("\x7b\"b\":2").data, by decide⟩ (by decide) (by decide)

end ResumeBuilder
